import Mathlib

/-!
# Verification of the pdf_compressor search and splitting engine

Shallow embedding of the core algorithmic components of the repository:

* `compressor/strategy.py` — tier selection (`determine_tier`, `STRATEGIES`)
  and the iterative compression search (`run_iterative_compression`), with its
  jump-to-aggressive shortcut, upward backtracking and sequential fallback;
* `compressor/splitter.py` — the split planner (`calculate_split_strategy`),
  the page-range generation and all-or-nothing per-`k` attempt
  (`try_split_and_compress`), and the escalation loop
  (`run_splitting_protocol`);
* `compressor/utils.py` — the size probe (`get_file_size_mb`);
* `orchestrator.py` — the per-document entry point (`process_file`).

External tools (pdftoppm/tesseract/recode_pdf/qpdf) are modelled as oracles:
a reconstruction oracle `recon : ℕ → Option ℚ` gives, for each preset index,
`none` when `reconstruct_pdf` fails and `some size` (in MB) when it succeeds
with an output of that size; extraction and per-partition compression are
Boolean oracles.  File sizes are rationals (megabytes), matching the Python
floats' role; page numbers and counts are naturals.
-/

namespace PdfCompressor

/-- A quality preset, from `STRATEGIES[...]["params_sequence"]` entries
in `compressor/strategy.py`. -/
structure Params where
  dpi : ℕ
  bg_downsample : ℕ
  jpeg2000_encoder : String
deriving DecidableEq, Repr

/-- Tier 1 preset sequence (`STRATEGIES[1]`, "High Quality Compression"). -/
def strategies1 : List Params :=
  [⟨300, 1, "openjpeg"⟩, ⟨300, 2, "openjpeg"⟩, ⟨300, 3, "grok"⟩,
   ⟨250, 3, "openjpeg"⟩, ⟨200, 4, "grok"⟩]

/-- Tier 2 preset sequence (`STRATEGIES[2]`, "Balanced Compression"). -/
def strategies2 : List Params :=
  [⟨300, 2, "openjpeg"⟩, ⟨300, 3, "grok"⟩, ⟨300, 4, "openjpeg"⟩,
   ⟨250, 4, "grok"⟩, ⟨200, 4, "openjpeg"⟩, ⟨150, 5, "grok"⟩]

/-- Tier 3 preset sequence (`STRATEGIES[3]`, "Extreme compression"). -/
def strategies3 : List Params :=
  [⟨200, 3, "grok"⟩, ⟨200, 4, "grok"⟩, ⟨200, 5, "openjpeg"⟩,
   ⟨150, 5, "grok"⟩, ⟨110, 6, "grok"⟩]

/-- `determine_tier` from `compressor/strategy.py`: size-based tier lookup,
`0` meaning "no tier applies". -/
def determine_tier (size_mb : ℚ) : ℕ :=
  if 2 ≤ size_mb ∧ size_mb < 10 then 1
  else if 10 ≤ size_mb ∧ size_mb < 50 then 2
  else if 50 ≤ size_mb then 3
  else 0

/-- `get_file_size_mb` from `compressor/utils.py`.  The filesystem is a
partial map from paths to byte counts; a missing file (`FileNotFoundError`)
yields `0` rather than an error. -/
def get_file_size_mb (fs : String → Option ℕ) (file_path : String) : ℚ :=
  match fs file_path with
  | some bytes => (bytes : ℚ) / (1024 * 1024)
  | none => 0

/-- Does the attempt at preset index `i` pass: `reconstruct_pdf` succeeds and
the produced size is `≤ target`?  (Bool-valued so concrete runs evaluate.) -/
def passes (recon : ℕ → Option ℚ) (target : ℚ) (i : ℕ) : Bool :=
  match recon i with
  | none => false
  | some sz => decide (sz ≤ target)

/-- The backtracking loop of `run_iterative_compression`
(`strategy.py`, `for idx in range(last_index - 1, -1, -1)`): with `m`
indices `m-1, m-2, …, 0` still to visit and `chosen` the best (lowest-index
passing) attempt so far, improve `chosen` while candidates keep passing and
stop at the first candidate that fails to reconstruct or exceeds the target.
Returns the final `chosen_path` index together with the trace of preset
indices on which `reconstruct_pdf` was invoked. -/
def backtrackAux (recon : ℕ → Option ℚ) (target : ℚ) (chosen : ℕ) :
    ℕ → ℕ × List ℕ
  | 0 => (chosen, [])
  | m + 1 =>
    match recon m with
    | none => (chosen, [m])
    | some sz =>
      if sz ≤ target then
        ((backtrackAux recon target m m).1,
          m :: (backtrackAux recon target m m).2)
      else (chosen, [m])

/-- The sequential fallback loop of `run_iterative_compression`
(`strategy.py`, `for i in range(1, len(...))`): starting at index `i` with
`fuel` presets left, return the first index whose attempt reconstructs with
size `≤ target` (`none` when the sequence is exhausted), plus the trace of
invoked preset indices.  A failed reconstruction (or an exception) just
advances to the next preset. -/
def seqSearch (recon : ℕ → Option ℚ) (target : ℚ) :
    ℕ → ℕ → Option ℕ × List ℕ
  | 0, _ => (none, [])
  | fuel + 1, i =>
    match recon i with
    | none =>
      ((seqSearch recon target fuel (i + 1)).1,
        i :: (seqSearch recon target fuel (i + 1)).2)
    | some sz =>
      if sz ≤ target then (some i, [i])
      else
        ((seqSearch recon target fuel (i + 1)).1,
          i :: (seqSearch recon target fuel (i + 1)).2)

/-- The preset-search core of `run_iterative_compression`
(`compressor/strategy.py`), entered once SharedArtifacts (images + hOCR)
exist, over a tier with `n` presets.  Result: the chosen preset index on
success (`none` on failure) and the ordered trace of preset indices on which
`reconstruct_pdf` was invoked.

Mirrors the source: try preset `0`; on `size ≤ target` succeed at once; on
`size > target * 1.5` jump to preset `n-1`, fail outright if that attempt
fails or exceeds target, otherwise backtrack upwards from `n-2`; otherwise
(including when preset `0` fails to reconstruct) scan presets `1, …, n-1`
in order. -/
def run_iterative_compression (n : ℕ) (recon : ℕ → Option ℚ) (target : ℚ) :
    Option ℕ × List ℕ :=
  match recon 0 with
  | none =>
    let r := seqSearch recon target (n - 1) 1
    (r.1, 0 :: r.2)
  | some s0 =>
    if s0 ≤ target then (some 0, [0])
    else if s0 > target * (3 / 2) then
      match recon (n - 1) with
      | none => (none, [0, n - 1])
      | some sl =>
        if sl > target then (none, [0, n - 1])
        else
          let r := backtrackAux recon target (n - 1) (n - 1)
          (some r.1, 0 :: (n - 1) :: r.2)
    else
      let r := seqSearch recon target (n - 1) 1
      (r.1, 0 :: r.2)

/-- Every success branch of `run_iterative_compression` copies the winning
attempt to `output_dir / f"{pdf_path.stem}_compressed.pdf"`. -/
def compressedName (stem : String) : String := stem ++ "_compressed.pdf"

/-- The caller-visible output of `run_iterative_compression`: the final path
on success, `none` on failure. -/
def run_iterative_compression_output (stem : String) (n : ℕ)
    (recon : ℕ → Option ℚ) (target : ℚ) : Option String :=
  (run_iterative_compression n recon target).1.map fun _ => compressedName stem

/-- `calculate_split_strategy` from `compressor/splitter.py`: the split
planner heuristic, `min(max_splits, ceil(size/25))` raised to `2` when
below `2`.  `math.ceil` on a Python float maps to `Int.ceil` on `ℚ`. -/
def calculate_split_strategy (total_size_mb : ℚ) (max_splits : ℤ) : ℤ :=
  let initial_k := min max_splits ⌈total_size_mb / 25⌉
  if initial_k < 2 then 2 else initial_k

/-- Pages per partition in `try_split_and_compress`:
`math.ceil(total_pages / k)` over naturals. -/
def pagesPerSplit (total_pages k : ℕ) : ℕ := (total_pages + k - 1) / k

/-- Phase 1 of `try_split_and_compress`, as page ranges: for
`i = 0, 1, …` (with `fuel = k - i` iterations remaining) emit the range
`(i*pps + 1, min ((i+1)*pps) total)`, breaking at the first `i` whose start
page exceeds `total_pages`. -/
def splitRangesFrom (total pps : ℕ) : ℕ → ℕ → List (ℕ × ℕ)
  | 0, _ => []
  | fuel + 1, i =>
    if i * pps + 1 > total then []
    else (i * pps + 1, min ((i + 1) * pps) total) ::
      splitRangesFrom total pps fuel (i + 1)

/-- The page ranges produced by one `k`-way split attempt
(`try_split_and_compress`, first loop). -/
def splitRanges (total_pages k : ℕ) : List (ℕ × ℕ) :=
  splitRangesFrom total_pages (pagesPerSplit total_pages k) k 0

/-- The splitting loop of `try_split_and_compress`: run `split_pdf` (the
oracle `splitOK`) on each planned part in order; any failure aborts the whole
`k` attempt (`return False`) before a single final partition file exists. -/
def extractAll (splitOK : ℕ → Bool) : List ℕ → Bool
  | [] => true
  | i :: rest => if splitOK i then extractAll splitOK rest else false

/-- The compression loop of `try_split_and_compress`: `produced` is the list
of final `_part<i+1>.pdf` files already written to the output directory.  A
part that compresses is appended; on the first part that fails, every file
in `produced` is unlinked and the attempt fails. -/
def compressParts (compressOK : ℕ → Bool) : List ℕ → List ℕ → Bool × List ℕ
  | produced, [] => (true, produced)
  | produced, i :: rest =>
    if compressOK i then compressParts compressOK (produced ++ [i]) rest
    else (false, [])

/-- `try_split_and_compress` from `compressor/splitter.py` for a given
partition count `k`.  `splitOK i` models `split_pdf` succeeding on part `i`;
`compressOK i` models `run_aggressive_compression` reaching the target on
part `i`.  Result: overall success, and the part indices whose final
`<stem>_part<i+1>.pdf` files remain in the output directory on return. -/
def try_split_and_compress (k total_pages : ℕ)
    (splitOK compressOK : ℕ → Bool) : Bool × List ℕ :=
  if extractAll splitOK (List.range (splitRanges total_pages k).length) then
    compressParts compressOK [] (List.range (splitRanges total_pages k).length)
  else (false, [])

/-- The escalation loop of `run_splitting_protocol`
(`for k in range(initial_k, args.max_splits + 1)`), with `fuel` values of
`k` left to try.  Accumulates whatever partition files each attempt leaves
behind; a succeeding `k` returns its files at once. -/
def protocolLoop (total_pages : ℕ) (splitOK compressOK : ℕ → ℕ → Bool) :
    ℕ → ℕ → Bool × List ℕ
  | 0, _ => (false, [])
  | fuel + 1, k =>
    let r := try_split_and_compress k total_pages (splitOK k) (compressOK k)
    if r.1 then (true, r.2)
    else
      let rest := protocolLoop total_pages splitOK compressOK fuel (k + 1)
      (rest.1, r.2 ++ rest.2)

/-- `run_splitting_protocol` from `compressor/splitter.py`: zero pages is a
hard failure; otherwise try `k` from `calculate_split_strategy` up to
`max_splits`.  Returns overall success plus all partition files left in the
output directory. -/
def run_splitting_protocol (total_pages : ℕ) (size_mb : ℚ) (max_splits : ℤ)
    (splitOK compressOK : ℕ → ℕ → Bool) : Bool × List ℕ :=
  if total_pages = 0 then (false, [])
  else
    let k0 := calculate_split_strategy size_mb max_splits
    protocolLoop total_pages splitOK compressOK (max_splits + 1 - k0).toNat k0.toNat

/-- The `finally` block of `run_iterative_compression`,
`run_aggressive_compression` and `try_split_and_compress`: the scratch
directory is kept exactly when `keep_temp_on_failure` was passed — the
outcome of the operation is not consulted. -/
def tempDirRetained (keep_temp_on_failure : Bool) (_outcome_success : Bool) :
    Bool :=
  keep_temp_on_failure

/-- Modelled from the spec (§4.5 WorkspaceManager), for comparison with the
code: scratch is retained only when retention was requested AND the
operation failed. -/
def specTempDirRetained (retainOnFailure outcomeWasFailure : Bool) : Bool :=
  retainOnFailure && outcomeWasFailure

/-- `process_file` from `orchestrator.py`, abstracted over the outcomes of
the two stages it may invoke.  Returns (whether `run_iterative_compression`
was invoked, overall per-document success).  The pre-check is the source's
`if original_size_mb < args.target_size: … return True`. -/
def process_file (original_size_mb target_size : ℚ)
    (allow_splitting : Bool) (searchOutcome splitOutcome : Bool) :
    Bool × Bool :=
  if original_size_mb < target_size then (false, true)
  else if searchOutcome then (true, true)
  else if allow_splitting then (true, splitOutcome)
  else (true, false)

/-- The optional copy performed by `process_file`'s pre-check branch when
`args.copy_small_files` is set: the original file name in the output
directory. -/
def smallFileCopy (name : String) (copy_small_files : Bool) : Option String :=
  if copy_small_files then some name else none

/-- C4: if the conservative (first) preset reconstructs with size ≤ target,
`run_iterative_compression` returns success immediately, the winning attempt
is copied to `<stem>_compressed.pdf`, and preset `0` is the only preset on
which `reconstruct_pdf` was invoked (exactly one reconstruction). -/
theorem first_attempt_success (stem : String) (n : ℕ) (recon : ℕ → Option ℚ)
    (target s0 : ℚ) (h0 : recon 0 = some s0) (hs : s0 ≤ target) :
    run_iterative_compression n recon target = (some 0, [0]) ∧
    run_iterative_compression_output stem n recon target =
      some (compressedName stem) := by
  constructor
  · unfold run_iterative_compression
    rw [h0]
    simp [hs]
  · unfold run_iterative_compression_output run_iterative_compression
    rw [h0]
    simp [hs]

/-- Witness for `first_attempt_success` at a concrete input. -/
theorem first_attempt_success_witness :
    run_iterative_compression 5 (fun _ => some (3 / 2)) 2 = (some 0, [0]) ∧
    run_iterative_compression_output "doc" 5 (fun _ => some (3 / 2)) 2 =
      some (compressedName "doc") :=
  first_attempt_success "doc" 5 (fun _ => some (3 / 2)) 2 (3 / 2) rfl (by norm_num)

/-- C2: when the conservative attempt lands strictly above 1.5 × target, the
search jumps straight to the last preset; if that aggressive attempt fails to
reconstruct or is strictly above target, the whole search fails with no
output, the invoked presets being exactly `0` and `n - 1`. -/
theorem far_jump_failure (stem : String) (n : ℕ) (recon : ℕ → Option ℚ)
    (target s0 : ℚ) (h0 : recon 0 = some s0) (ht : 0 ≤ target)
    (hfar : s0 > target * (3 / 2))
    (hbad : recon (n - 1) = none ∨
      ∀ sl, recon (n - 1) = some sl → sl > target) :
    run_iterative_compression n recon target = (none, [0, n - 1]) ∧
    run_iterative_compression_output stem n recon target = none := by
  have hns : ¬ s0 ≤ target := by
    intro hle
    have : target * (3 / 2) ≥ target := by nlinarith
    linarith
  have hmain : run_iterative_compression n recon target = (none, [0, n - 1]) := by
    unfold run_iterative_compression
    rw [h0]
    simp only [hns, if_false, hfar, if_true, gt_iff_lt]
    rcases hbad with hnone | hbig
    · rw [hnone]
    · cases hlast : recon (n - 1) with
      | none => rfl
      | some sl =>
        have := hbig sl hlast
        simp [this]
  refine ⟨hmain, ?_⟩
  unfold run_iterative_compression_output
  rw [hmain]
  rfl

/-- Witness for `far_jump_failure` at a concrete input (aggressive attempt
still above target). -/
theorem far_jump_failure_witness :
    run_iterative_compression 5
      (fun i => if i = 0 then some 9 else some (5 / 2)) 2 = (none, [0, 4]) ∧
    run_iterative_compression_output "doc" 5
      (fun i => if i = 0 then some 9 else some (5 / 2)) 2 = none :=
  far_jump_failure "doc" 5 (fun i => if i = 0 then some 9 else some (5 / 2))
    2 9 rfl (by norm_num) (by norm_num)
    (Or.inr (by intro sl h; simp at h; rw [← h]; norm_num))

/-- C7: the split planner returns `ceil(sizeMB / 25)` clamped into
`[2, maxSplits]`. -/
theorem split_strategy_clamped (total_size_mb : ℚ) (max_splits : ℤ)
    (hpos : 0 < total_size_mb) (hmax : 2 ≤ max_splits) :
    calculate_split_strategy total_size_mb max_splits =
      min max_splits (max 2 ⌈total_size_mb / 25⌉) ∧
    2 ≤ calculate_split_strategy total_size_mb max_splits ∧
    calculate_split_strategy total_size_mb max_splits ≤ max_splits := by
  unfold calculate_split_strategy
  set c := ⌈total_size_mb / 25⌉ with hc
  dsimp only
  split <;> omega

/-- Witness for `split_strategy_clamped` at a concrete input. -/
theorem split_strategy_clamped_witness :
    calculate_split_strategy 60 4 = min 4 (max 2 ⌈(60 : ℚ) / 25⌉) ∧
    2 ≤ calculate_split_strategy 60 4 ∧ calculate_split_strategy 60 4 ≤ 4 :=
  split_strategy_clamped 60 4 (by norm_num) (by norm_num)

/-- C8 (code bug): the code's `finally` blocks retain the scratch directory
whenever `keep_temp_on_failure` is set, even when the operation succeeded,
whereas the WorkspaceManager contract deletes it unless retention was
requested and the outcome was a failure. -/
theorem temp_retention_ignores_outcome :
    tempDirRetained true true = true ∧
    specTempDirRetained true false = false ∧
    ∀ outcome_success, tempDirRetained true outcome_success = true :=
  ⟨rfl, rfl, fun _ => rfl⟩

/-- C9 counterexample: a document whose size equals the target (so is ≤
target) still invokes `run_iterative_compression` — the pre-check in
`process_file` is strict `<`. -/
theorem precheck_equal_size_invokes_search :
    (2 : ℚ) ≤ 2 ∧ (process_file 2 2 false false false).1 = true := by
  constructor
  · norm_num
  · unfold process_file
    norm_num

/-- C9 (amended): for a document strictly below the target size, the
pre-check short-circuits: the search is never invoked and the outcome is
success, decided by the size check alone, with the optional copy governed by
`copy_small_files`. -/
theorem precheck_skips_search (name : String)
    (original_size_mb target_size : ℚ)
    (allow_splitting searchOutcome splitOutcome copy_small_files : Bool)
    (h : original_size_mb < target_size) :
    process_file original_size_mb target_size allow_splitting
        searchOutcome splitOutcome = (false, true) ∧
    smallFileCopy name copy_small_files =
      (if copy_small_files then some name else none) := by
  constructor
  · unfold process_file
    simp [h]
  · rfl

/-- Witness for `precheck_skips_search` at a concrete input. -/
theorem precheck_skips_search_witness :
    process_file 1 2 false false false = (false, true) ∧
    smallFileCopy "doc.pdf" true = (if true then some "doc.pdf" else none) :=
  precheck_skips_search "doc.pdf" 1 2 false false false true (by norm_num)

/-- C10: the size probe returns `0` for a missing file, and therefore any
search attempt whose reconstruction reports success but whose output file is
absent measures `0` MB and passes the `size ≤ target` success test. -/
theorem missing_file_measures_zero (fs : String → Option ℕ) (path : String)
    (target : ℚ) (h : fs path = none) (ht : 0 ≤ target) :
    get_file_size_mb fs path = 0 ∧
    ∀ (recon : ℕ → Option ℚ) (i : ℕ),
      recon i = some (get_file_size_mb fs path) →
      passes recon target i = true := by
  have hz : get_file_size_mb fs path = 0 := by
    unfold get_file_size_mb
    rw [h]
  refine ⟨hz, fun recon i hr => ?_⟩
  unfold passes
  rw [hr, hz]
  simp [ht]

/-- Witness for `missing_file_measures_zero` at a concrete input. -/
theorem missing_file_measures_zero_witness :
    get_file_size_mb (fun _ => none) "ghost.pdf" = 0 ∧
    ∀ (recon : ℕ → Option ℚ) (i : ℕ),
      recon i = some (get_file_size_mb (fun _ => none) "ghost.pdf") →
      passes recon 2 i = true :=
  missing_file_measures_zero (fun _ => none) "ghost.pdf" 2 rfl (by norm_num)

/-- A failed compression pass leaves no partition files: the cleanup loop
unlinks everything in `split_files` before `return False`. -/
lemma compressParts_fail_empty (compressOK : ℕ → Bool) :
    ∀ parts produced, (compressParts compressOK produced parts).1 = false →
      (compressParts compressOK produced parts).2 = [] := by
  intro parts
  induction parts with
  | nil => intro produced h; exact absurd h (by simp [compressParts])
  | cons i rest ih =>
    intro produced h
    unfold compressParts at h ⊢
    by_cases hc : compressOK i = true
    · rw [hc] at h ⊢
      simp only [if_true] at h ⊢
      exact ih _ h
    · simp only [Bool.not_eq_true] at hc
      rw [hc]
      simp

/-- A failed `k` attempt leaves no partition files in the output directory. -/
lemma try_split_fail_empty (k total_pages : ℕ) (splitOK compressOK : ℕ → Bool)
    (h : (try_split_and_compress k total_pages splitOK compressOK).1 = false) :
    (try_split_and_compress k total_pages splitOK compressOK).2 = [] := by
  unfold try_split_and_compress at h ⊢
  by_cases he : extractAll splitOK (List.range (splitRanges total_pages k).length) = true
  · rw [he] at h ⊢
    simp only [if_true] at h ⊢
    exact compressParts_fail_empty _ _ _ h
  · simp only [Bool.not_eq_true] at he
    rw [he]
    simp

/-- An escalation loop that never succeeds leaves no partition files. -/
lemma protocolLoop_fail_empty (total_pages : ℕ)
    (splitOK compressOK : ℕ → ℕ → Bool) :
    ∀ fuel k, (protocolLoop total_pages splitOK compressOK fuel k).1 = false →
      (protocolLoop total_pages splitOK compressOK fuel k).2 = [] := by
  intro fuel
  induction fuel with
  | zero => intro k _; rfl
  | succ m ih =>
    intro k h
    unfold protocolLoop at h ⊢
    simp only [] at h ⊢
    by_cases hr : (try_split_and_compress k total_pages (splitOK k)
        (compressOK k)).1 = true
    · rw [hr] at h ⊢
      simp only [if_true] at h ⊢
      exact absurd h (by simp)
    · simp only [Bool.not_eq_true] at hr
      rw [hr] at h ⊢
      simp only [Bool.false_eq_true, if_false] at h ⊢
      rw [try_split_fail_empty _ _ _ _ hr, ih _ h]
      rfl

/-- C5: split attempts are all-or-nothing — a failed `k` attempt of
`try_split_and_compress` leaves zero `<stem>_part<i>.pdf` files, and when
`run_splitting_protocol` exhausts `max_splits` without a fully successful
attempt its outcome is failure with zero partition files remaining. -/
theorem split_all_or_nothing (k total_pages : ℕ) (size_mb : ℚ)
    (max_splits : ℤ) (splitOK1 compressOK1 : ℕ → Bool)
    (splitOK compressOK : ℕ → ℕ → Bool) :
    ((try_split_and_compress k total_pages splitOK1 compressOK1).1 = false →
      (try_split_and_compress k total_pages splitOK1 compressOK1).2 = []) ∧
    ((run_splitting_protocol total_pages size_mb max_splits
        splitOK compressOK).1 = false →
      (run_splitting_protocol total_pages size_mb max_splits
        splitOK compressOK).2 = []) := by
  refine ⟨try_split_fail_empty k total_pages splitOK1 compressOK1, fun h => ?_⟩
  unfold run_splitting_protocol at h ⊢
  by_cases hz : total_pages = 0
  · simp [hz]
  · simp only [hz, if_false] at h ⊢
    exact protocolLoop_fail_empty _ _ _ _ _ h

/-- Witness for `split_all_or_nothing`: one partition always fails at every
`k`; both the per-`k` attempt and the whole protocol report failure with no
partition files left. -/
theorem split_all_or_nothing_witness :
    (try_split_and_compress 3 10 (fun _ => true) (fun i => i != 2)).2 = [] ∧
    (run_splitting_protocol 10 60 4 (fun _ _ => true)
      (fun _ i => i != 0)).2 = [] := by
  have hceil : (⌈(60 : ℚ) / 25⌉ : ℤ) = 3 := by
    rw [Int.ceil_eq_iff] <;> norm_num
  have hk : calculate_split_strategy 60 4 = 3 := by
    unfold calculate_split_strategy
    rw [hceil]
    decide
  have h2 : (run_splitting_protocol 10 60 4 (fun _ _ => true)
      (fun _ i => i != 0)).1 = false := by
    unfold run_splitting_protocol
    simp only [hk]
    decide
  exact ⟨(split_all_or_nothing 3 10 60 4 (fun _ => true) (fun i => i != 2)
      (fun _ _ => true) (fun _ i => i != 0)).1 (by decide),
    (split_all_or_nothing 3 10 60 4 (fun _ => true) (fun i => i != 2)
      (fun _ _ => true) (fun _ i => i != 0)).2 h2⟩

/-- The pages contained in one page range `(start, end)`, endpoints
inclusive. -/
def pagesOf (r : ℕ × ℕ) : List ℕ := List.range' r.1 (r.2 + 1 - r.1)

/-- Flattening the ranges emitted from index `i` onward yields exactly the
pages `i*pps + 1 … total`, provided the remaining iterations can reach
`total`. -/
lemma splitRangesFrom_flatten (total pps : ℕ) :
    ∀ fuel i, total ≤ (i + fuel) * pps →
      ((splitRangesFrom total pps fuel i).map pagesOf).flatten =
        List.range' (i * pps + 1) (total - i * pps) := by
  intro fuel
  induction fuel with
  | zero =>
    intro i hle
    have hz : total - i * pps = 0 := by
      have : (i + 0) * pps = i * pps := by ring
      omega
    simp [splitRangesFrom, hz]
  | succ m ih =>
    intro i hle
    have hsucc : (i + 1) * pps = i * pps + pps := by ring
    by_cases hbr : i * pps + 1 > total
    · have hz : total - i * pps = 0 := by omega
      simp [splitRangesFrom, hbr, hz]
    · have hrest : ((splitRangesFrom total pps m (i + 1)).map pagesOf).flatten =
          List.range' ((i + 1) * pps + 1) (total - (i + 1) * pps) := by
        refine ih (i + 1) ?_
        have : (i + 1 + m) * pps = (i + (m + 1)) * pps := by ring
        omega
      rw [splitRangesFrom, if_neg hbr]
      rw [List.map_cons, List.flatten_cons, hrest]
      unfold pagesOf
      by_cases hc : (i + 1) * pps ≤ total
      · have hm : min ((i + 1) * pps) total + 1 - (i * pps + 1) = pps := by
          rw [min_eq_left hc]
          omega
        have hstart : (i + 1) * pps + 1 = (i * pps + 1) + pps := by omega
        rw [hm, hstart, List.range'_append_1]
        congr 1
        omega
      · have hm : min ((i + 1) * pps) total + 1 - (i * pps + 1) =
            total - i * pps := by
          rw [min_eq_right (by omega)]
          omega
        have hz : total - (i + 1) * pps = 0 := by omega
        rw [hm, hz]
        simp

/-- Every emitted range is non-empty (`start ≤ end`). -/
lemma splitRangesFrom_nonempty (total pps : ℕ) (hpps : 1 ≤ pps) :
    ∀ fuel i, ∀ r ∈ splitRangesFrom total pps fuel i, r.1 ≤ r.2 := by
  intro fuel
  induction fuel with
  | zero => intro i r hr; exact absurd hr (by simp [splitRangesFrom])
  | succ m ih =>
    intro i r hr
    rw [splitRangesFrom] at hr
    by_cases hbr : i * pps + 1 > total
    · rw [if_pos hbr] at hr
      exact absurd hr (by simp)
    · rw [if_neg hbr] at hr
      rcases List.mem_cons.mp hr with h | h
      · subst h
        have hsucc : (i + 1) * pps = i * pps + pps := by ring
        simp only
        omega
      · exact ih (i + 1) r h

/-- C6: for every `totalPages ≥ 1` and `k ≥ 1`, the page ranges generated by
a `k`-way split attempt are non-empty and their ordered concatenation is
exactly the pages `1 … totalPages` — contiguous, non-overlapping, covering
`[1, totalPages]` exactly once. -/
theorem split_ranges_cover (total_pages k : ℕ)
    (ht : 1 ≤ total_pages) (hk : 1 ≤ k) :
    (∀ r ∈ splitRanges total_pages k, r.1 ≤ r.2) ∧
    ((splitRanges total_pages k).map pagesOf).flatten =
      List.range' 1 total_pages := by
  have hkpos : 0 < k := hk
  have hdm := Nat.div_add_mod (total_pages + k - 1) k
  have hml : (total_pages + k - 1) % k < k := Nat.mod_lt _ hkpos
  have hpps : 1 ≤ pagesPerSplit total_pages k := by
    unfold pagesPerSplit
    rw [Nat.one_le_div_iff hkpos]
    omega
  have hreach : total_pages ≤ (0 + k) * pagesPerSplit total_pages k := by
    unfold pagesPerSplit
    rw [Nat.zero_add]
    omega
  constructor
  · exact fun r hr => splitRangesFrom_nonempty total_pages _ hpps k 0 r hr
  · have hcov := splitRangesFrom_flatten total_pages
      (pagesPerSplit total_pages k) k 0 hreach
    unfold splitRanges
    rw [hcov]
    norm_num

/-- Witness for `split_ranges_cover` at a concrete input (10 pages split 3
ways: ranges (1,4), (5,8), (9,10)). -/
theorem split_ranges_cover_witness :
    (∀ r ∈ splitRanges 10 3, r.1 ≤ r.2) ∧
    ((splitRanges 10 3).map pagesOf).flatten = List.range' 1 10 :=
  split_ranges_cover 10 3 (by decide) (by decide)

/-- Characterization of the backtracking loop entered with `chosen = m` and
indices `m-1, …, 0` to visit: the returned index is at most `m`, every index
from it up to `m-1` passes, and it is either `0` or sits right above a
failing index (the loop stopped there). -/
lemma backtrackAux_spec (recon : ℕ → Option ℚ) (target : ℚ) :
    ∀ m, (backtrackAux recon target m m).1 ≤ m ∧
      (∀ i, (backtrackAux recon target m m).1 ≤ i → i < m →
        passes recon target i = true) ∧
      ((backtrackAux recon target m m).1 = 0 ∨
        passes recon target ((backtrackAux recon target m m).1 - 1) = false) := by
  intro m
  induction m with
  | zero => exact ⟨le_refl 0, fun i h1 h2 => absurd h2 (by omega), Or.inl rfl⟩
  | succ m ih =>
    rw [backtrackAux]
    cases hr : recon m with
    | none =>
      dsimp only
      refine ⟨le_refl _, fun i h1 h2 => absurd h2 (by omega), Or.inr ?_⟩
      unfold passes
      rw [Nat.add_sub_cancel, hr]
    | some sz =>
      dsimp only
      by_cases hsz : sz ≤ target
      · simp only [if_pos hsz]
        obtain ⟨ih1, ih2, ih3⟩ := ih
        refine ⟨le_trans ih1 (by omega), fun i h1 h2 => ?_, ih3⟩
        by_cases him : i < m
        · exact ih2 i h1 him
        · have : i = m := by omega
          subst this
          unfold passes
          rw [hr]
          simp [hsz]
      · simp only [if_neg hsz]
        refine ⟨le_refl _, fun i h1 h2 => absurd h2 (by omega), Or.inr ?_⟩
        unfold passes
        rw [Nat.add_sub_cancel, hr]
        simp [hsz]

/-- C1: when the conservative attempt is far from target and the most
aggressive preset succeeds, the search returns the `bestSoFar` of the
backtracking phase: the smallest-index preset of the contiguous passing
suffix reachable from the aggressive success — every index from it through
`n-1` passes, it is `0` or sits right above a failing candidate (where
backtracking stopped), and it is minimal among indices whose whole suffix
passes. -/
theorem backtrack_returns_best (n : ℕ) (recon : ℕ → Option ℚ)
    (target s0 sl : ℚ) (h0 : recon 0 = some s0) (ht : 0 ≤ target)
    (hfar : s0 > target * (3 / 2)) (hl : recon (n - 1) = some sl)
    (hsl : sl ≤ target) :
    ∃ c, (run_iterative_compression n recon target).1 = some c ∧
      c ≤ n - 1 ∧
      (∀ i, c ≤ i → i ≤ n - 1 → passes recon target i = true) ∧
      (c = 0 ∨ passes recon target (c - 1) = false) ∧
      (∀ j, (∀ i, j ≤ i → i ≤ n - 1 → passes recon target i = true) →
        c ≤ j) := by
  have hns : ¬ s0 ≤ target := by
    intro hle
    have : target * (3 / 2) ≥ target := by nlinarith
    linarith
  have hlastpass : passes recon target (n - 1) = true := by
    unfold passes
    rw [hl]
    simp [hsl]
  have hres : (run_iterative_compression n recon target).1 =
      some (backtrackAux recon target (n - 1) (n - 1)).1 := by
    unfold run_iterative_compression
    rw [h0]
    simp only [hns, if_false, hfar, if_true, gt_iff_lt]
    rw [hl]
    simp [not_lt.mpr hsl]
  obtain ⟨hle, hsuffix, hstop⟩ := backtrackAux_spec recon target (n - 1)
  refine ⟨(backtrackAux recon target (n - 1) (n - 1)).1, hres, hle,
    fun i h1 h2 => ?_, hstop, fun j hj => ?_⟩
  · by_cases hi : i < n - 1
    · exact hsuffix i h1 hi
    · have : i = n - 1 := by omega
      subst this
      exact hlastpass
  · by_contra hlt
    push_neg at hlt
    have hc1 : 1 ≤ (backtrackAux recon target (n - 1) (n - 1)).1 := by omega
    have hfail : passes recon target
        ((backtrackAux recon target (n - 1) (n - 1)).1 - 1) = false := by
      rcases hstop with h | h
      · omega
      · exact h
    have hpass := hj ((backtrackAux recon target (n - 1) (n - 1)).1 - 1)
      (by omega) (by omega)
    rw [hpass] at hfail
    exact absurd hfail (by simp)

/-- Witness for `backtrack_returns_best` at a concrete input. -/
theorem backtrack_returns_best_witness :
    ∃ c, (run_iterative_compression 5
        (fun i => if i = 0 then some 9 else if i = 4 then some 1
          else if i = 3 then some 2 else some 3) 2).1 = some c ∧
      c ≤ 4 ∧
      (∀ i, c ≤ i → i ≤ 4 → passes
        (fun i => if i = 0 then some 9 else if i = 4 then some 1
          else if i = 3 then some 2 else some 3) 2 i = true) ∧
      (c = 0 ∨ passes
        (fun i => if i = 0 then some 9 else if i = 4 then some 1
          else if i = 3 then some 2 else some 3) 2 (c - 1) = false) ∧
      (∀ j, (∀ i, j ≤ i → i ≤ 4 → passes
          (fun i => if i = 0 then some 9 else if i = 4 then some 1
            else if i = 3 then some 2 else some 3) 2 i = true) → c ≤ j) :=
  backtrack_returns_best 5
    (fun i => if i = 0 then some 9 else if i = 4 then some 1
      else if i = 3 then some 2 else some 3)
    2 9 1 rfl (by norm_num) (by norm_num) rfl (by norm_num)

/-- Modelled from the spec (§8, testable properties): the naive reference
search that scans presets in index order and returns the first whose
simulated size is ≤ target. -/
def naiveFirstFit (n : ℕ) (sizes : ℕ → ℚ) (target : ℚ) : Option ℕ :=
  (List.range n).find? fun i => decide (sizes i ≤ target)

/-- The sequential fallback loop finds the first passing index in
`[i, i + fuel)`. -/
lemma seqSearch_find (recon : ℕ → Option ℚ) (target : ℚ) :
    ∀ fuel i, (seqSearch recon target fuel i).1 =
      (List.range' i fuel).find? (passes recon target) := by
  intro fuel
  induction fuel with
  | zero => intro i; rfl
  | succ m ih =>
    intro i
    rw [seqSearch, List.range'_succ]
    cases hr : recon i with
    | none =>
      have hp : passes recon target i = false := by
        unfold passes
        rw [hr]
      rw [List.find?_cons_of_neg _ (by simp [hp])]
      exact ih (i + 1)
    | some sz =>
      by_cases hsz : sz ≤ target
      · have hp : passes recon target i = true := by
          unfold passes
          rw [hr]
          simp [hsz]
        rw [List.find?_cons_of_pos _ hp]
        simp [hsz]
      · have hp : passes recon target i = false := by
          unfold passes
          rw [hr]
          simp [hsz]
        rw [List.find?_cons_of_neg _ (by simp [hp])]
        simp only [if_neg hsz]
        exact ih (i + 1)

/-- `find?` over `range' s len` returns the least index whose predicate
holds, given that everything below it in the window fails. -/
lemma find?_range'_eq_some (p : ℕ → Bool) :
    ∀ len s c, s ≤ c → c < s + len → p c = true →
      (∀ i, s ≤ i → i < c → p i = false) →
      (List.range' s len).find? p = some c := by
  intro len
  induction len with
  | zero => intro s c h1 h2 _ _; exact absurd h2 (by omega)
  | succ m ih =>
    intro s c h1 h2 h3 h4
    rw [List.range'_succ]
    by_cases hsc : s = c
    · subst hsc
      rw [List.find?_cons_of_pos _ h3]
    · have hps : p s = false := h4 s (le_refl s) (by omega)
      rw [List.find?_cons_of_neg _ (by simp [hps])]
      exact ih (s + 1) c (by omega) (by omega) h3
        (fun i hi1 hi2 => h4 i (by omega) hi2)

/-- C3: with a deterministic reconstruction oracle whose output size is
non-increasing along the preset order, the optimized search
(jump-to-aggressive plus backtrack, or linear scan) returns exactly what the
naive first-fit reference does, and fails exactly when no preset's size is
≤ target. -/
theorem search_refines_first_fit (n : ℕ) (sizes : ℕ → ℚ) (target : ℚ)
    (hn : 1 ≤ n) (hmono : ∀ i j, i ≤ j → j < n → sizes j ≤ sizes i) :
    (run_iterative_compression n (fun i => some (sizes i)) target).1 =
      naiveFirstFit n sizes target ∧
    ((run_iterative_compression n (fun i => some (sizes i)) target).1 = none
      ↔ ∀ i, i < n → ¬ sizes i ≤ target) := by
  obtain ⟨m, rfl⟩ : ∃ m, n = m + 1 := ⟨n - 1, by omega⟩
  have hm1 : m + 1 - 1 = m := by omega
  have heq : (run_iterative_compression (m + 1)
      (fun i => some (sizes i)) target).1 = naiveFirstFit (m + 1) sizes target := by
    by_cases h0 : sizes 0 ≤ target
    · have hL : (run_iterative_compression (m + 1)
          (fun i => some (sizes i)) target).1 = some 0 := by
        unfold run_iterative_compression
        dsimp only
        rw [if_pos h0]
      have hR : naiveFirstFit (m + 1) sizes target = some 0 := by
        unfold naiveFirstFit
        rw [List.range_eq_range']
        exact find?_range'_eq_some _ (m + 1) 0 0 (le_refl 0) (by omega)
          (by simp [h0]) (fun i h1 h2 => absurd h2 (by omega))
      rw [hL, hR]
    · by_cases hfar : sizes 0 > target * (3 / 2)
      · by_cases hsl : sizes m ≤ target
        · have hL : (run_iterative_compression (m + 1)
              (fun i => some (sizes i)) target).1 =
              some (backtrackAux (fun i => some (sizes i)) target m m).1 := by
            unfold run_iterative_compression
            dsimp only
            rw [if_neg h0, if_pos hfar, hm1]
            rw [if_neg (not_lt.mpr hsl)]
          obtain ⟨hle, hsuffix, hstop⟩ :=
            backtrackAux_spec (fun i => some (sizes i)) target m
          have hcpass : passes (fun i => some (sizes i)) target
              (backtrackAux (fun i => some (sizes i)) target m m).1 = true := by
            rcases lt_or_eq_of_le hle with h | h
            · exact hsuffix _ (le_refl _) h
            · rw [h]
              unfold passes
              simp [hsl]
          have hR : naiveFirstFit (m + 1) sizes target =
              some (backtrackAux (fun i => some (sizes i)) target m m).1 := by
            unfold naiveFirstFit
            rw [List.range_eq_range']
            refine find?_range'_eq_some _ (m + 1) 0 _ (Nat.zero_le _)
              (by omega) hcpass (fun i _ hic => ?_)
            have hc0 : (backtrackAux (fun i => some (sizes i)) target m m).1 ≠ 0 := by
              omega
            have hfail : passes (fun i => some (sizes i)) target
                ((backtrackAux (fun i => some (sizes i)) target m m).1 - 1) =
                  false := hstop.resolve_left hc0
            have hgt : ¬ sizes
                ((backtrackAux (fun i => some (sizes i)) target m m).1 - 1) ≤
                  target := by
              simpa [passes] using hfail
            have hmo : sizes
                ((backtrackAux (fun i => some (sizes i)) target m m).1 - 1) ≤
                  sizes i :=
              hmono i _ (by omega) (by omega)
            simp only [decide_eq_false_iff_not]
            intro hcon
            exact hgt (le_trans hmo hcon)
          rw [hL, hR]
        · have hL : (run_iterative_compression (m + 1)
              (fun i => some (sizes i)) target).1 = none := by
            unfold run_iterative_compression
            dsimp only
            rw [if_neg h0, if_pos hfar, hm1]
            rw [if_pos (not_le.mp hsl)]
          have hR : naiveFirstFit (m + 1) sizes target = none := by
            unfold naiveFirstFit
            rw [List.find?_eq_none]
            intro x hx
            rw [List.mem_range] at hx
            have hmo : sizes m ≤ sizes x := hmono x m (by omega) (by omega)
            simp only [decide_eq_true_eq]
            intro hcon
            exact hsl (le_trans hmo hcon)
          rw [hL, hR]
      · have hL : (run_iterative_compression (m + 1)
            (fun i => some (sizes i)) target).1 =
            (List.range' 1 m).find?
              (passes (fun i => some (sizes i)) target) := by
          unfold run_iterative_compression
          dsimp only
          rw [if_neg h0, if_neg hfar, hm1]
          exact seqSearch_find _ _ m 1
        have hR : naiveFirstFit (m + 1) sizes target =
            (List.range' 1 m).find?
              (passes (fun i => some (sizes i)) target) := by
          unfold naiveFirstFit
          rw [List.range_eq_range', List.range'_succ]
          rw [List.find?_cons_of_neg _ (by simp [h0])]
          rfl
        rw [hL, hR]
  refine ⟨heq, ?_⟩
  rw [heq]
  unfold naiveFirstFit
  rw [List.find?_eq_none]
  constructor
  · intro h i hi
    have := h i (List.mem_range.mpr hi)
    simpa using this
  · intro h x hx
    rw [List.mem_range] at hx
    simpa using h x hx

/-- Witness for `search_refines_first_fit`: a strictly decreasing simulated
size profile over five presets. -/
theorem search_refines_first_fit_witness :
    (run_iterative_compression 5
        (fun i : ℕ => some ((6 : ℚ) - (i : ℚ))) 2).1 =
      naiveFirstFit 5 (fun i : ℕ => (6 : ℚ) - (i : ℚ)) 2 ∧
    ((run_iterative_compression 5
        (fun i : ℕ => some ((6 : ℚ) - (i : ℚ))) 2).1 = none
      ↔ ∀ i : ℕ, i < 5 → ¬ ((6 : ℚ) - (i : ℚ)) ≤ 2) :=
  search_refines_first_fit 5 (fun i : ℕ => (6 : ℚ) - (i : ℚ)) 2 (by decide)
    (fun i j hij _ => by
      have hc : (i : ℚ) ≤ (j : ℚ) := Nat.cast_le.mpr hij
      dsimp only
      linarith)

end PdfCompressor
